import Mathlib

set_option linter.unusedSectionVars false

/-!
Shallow embedding of the `HashMap` class from `src/HashTable.cpp`
(a separately-chained hash table storing entries in a `std::list`
for insertion-ordered iteration, with a `std::vector<std::vector<ListIter>>`
bucket index holding list iterators).

Modelling choices:
* A `std::list` iterator is a stable reference to a list node.  We model
  nodes as `Entry` records carrying a unique numeric `id` (allocated from
  `nextId`); a bucket holds the `id`s of the entries chained to it, in
  `push_back` order, exactly as the vector of iterators does.
* `size_`, `capacity_`, `hash_table_` and `elements_` are separate fields
  of the record, exactly as the C++ data members are: none is derived
  from another, so states in which they disagree (as the C++ object can
  reach) are representable.
* The floating-point thresholds `size_ >= 0.5 * capacity_` and
  `size_ <= 0.125 * capacity_` are exact comparisons of small integers,
  i.e. `capacity ≤ 2 * size` and `8 * size ≤ capacity`; the truncating
  conversion of `capacity_ / 2.0` to `size_t` is Nat division.
* `throw std::out_of_range` in `at` is modelled by `Option.none`.
* Moved-from `std::vector`/`std::list` members are modelled as empty
  (the behaviour of the mainstream standard libraries); the scalar
  members `size_` and `capacity_` of a moved-from table are untouched
  by the C++ code and stay untouched in the model.
-/

namespace HashTable

/-- One node of the `std::list<std::pair<const KeyType, ValueType>> elements_`:
an immutable key, a mutable value, and the node identity `id` that a
`ListIter` stable reference denotes. -/
structure Entry (K V : Type) where
  id : Nat
  key : K
  val : V
deriving Repr, DecidableEq

/-- The data members of the C++ `HashMap` object (`src/HashTable.cpp`
lines 30-35): `capacity_`, `size_`, the stored hasher `hash_`, the bucket
index `hash_table_` (lists of stable references, i.e. entry ids), and the
insertion-ordered element store `elements_`.  `nextId` is the model's
allocator for fresh node identities. -/
structure HashMap (K V : Type) where
  hasher : K → Nat
  capacity : Nat
  size : Nat
  buckets : List (List Nat)
  elements : List (Entry K V)
  nextId : Nat

variable {K V : Type} [DecidableEq K]

/-- The default constructor `HashMap(Hash hash = Hash{})`
(`src/HashTable.cpp` lines 124-126): capacity `kDefaultCapacity = 1`,
no elements, one empty bucket. -/
def HashMap.new (hash : K → Nat) : HashMap K V :=
  { hasher := hash, capacity := 1, size := 0, buckets := [[]], elements := [], nextId := 0 }

/-- Member `empty()` (`src/HashTable.cpp` line 197): `size_ == 0`. -/
def HashMap.empty (t : HashMap K V) : Bool :=
  t.size == 0

/-- Dereference a stable reference (list iterator): the entry of
`elements_` carrying this node identity. -/
def deref (t : HashMap K V) (a : Nat) : Option (Entry K V) :=
  t.elements.find? (fun e => e.id == a)

/-- The scan loop of `get_position` (`src/HashTable.cpp` lines 44-50):
walk the bucket from index `i`, return the first position whose
referenced entry's key equals `key`. -/
def scanBucket (t : HashMap K V) (key : K) : List Nat → Nat → Option Nat
  | [], _ => none
  | a :: rest, i =>
    match deref t a with
    | some e => if e.key = key then some i else scanBucket t key rest (i + 1)
    | none => scanBucket t key rest (i + 1)

/-- `get_position(key, raw_hash)` (`src/HashTable.cpp` lines 41-52):
returns `(raw_hash % capacity_, position in that bucket)` where the
position is `none` for the C++ `ind == -1`. -/
def getPosition (t : HashMap K V) (key : K) (rawHash : Nat) : Nat × Option Nat :=
  let h := rawHash % t.capacity
  (h, scanBucket t key (t.buckets.getD h []) 0)

/-- `hash_table_[i].push_back(x)`: append a stable reference to bucket `i`. -/
def pushAt (bs : List (List Nat)) (i : Nat) (x : Nat) : List (List Nat) :=
  bs.set i (bs.getD i [] ++ [x])

/-- The indexing loop of `rebuild` (`src/HashTable.cpp` lines 60-63):
push every element's stable reference into bucket `hash(key) % cap`. -/
def indexInto (hash : K → Nat) (cap : Nat) (els : List (Entry K V))
    (bs : List (List Nat)) : List (List Nat) :=
  els.foldl (fun acc e => pushAt acc (hash e.key % cap) e.id) bs

/-- `rebuild(new_capacity)` (`src/HashTable.cpp` lines 56-64): assign a
fresh bucket array of `new_capacity` empty buckets, set `capacity_`, and
re-index every element of `elements_` in order. -/
def rebuild (t : HashMap K V) (newCap : Nat) : HashMap K V :=
  { t with capacity := newCap,
           buckets := indexInto t.hasher newCap t.elements (List.replicate newCap []) }

/-- `rebuild_if_needed()` (`src/HashTable.cpp` lines 67-74): grow by 2
when `size_ >= capacity_ / 2`, else shrink by 2 when
`size_ <= capacity_ / 8` and `capacity_ > kDefaultCapacity`. -/
def rebuildIfNeeded (t : HashMap K V) : HashMap K V :=
  if t.capacity ≤ 2 * t.size then rebuild t (t.capacity * 2)
  else if 8 * t.size ≤ t.capacity ∧ 1 < t.capacity then rebuild t (t.capacity / 2)
  else t

/-- `add_element(element)` (`src/HashTable.cpp` lines 78-94): if the key
is not present, push the new entry at the back of `elements_`, push its
stable reference into its bucket, and bump `size_`; in every case run
`rebuild_if_needed` and return `raw_hash`. -/
def addElement (t : HashMap K V) (key : K) (val : V) : Nat × HashMap K V :=
  let rawHash := t.hasher key
  let p := getPosition t key rawHash
  let t1 :=
    match p.2 with
    | none =>
      { t with elements := t.elements ++ [⟨t.nextId, key, val⟩],
               buckets := pushAt t.buckets p.1 t.nextId,
               size := t.size + 1,
               nextId := t.nextId + 1 }
    | some _ => t
  (rawHash, rebuildIfNeeded t1)

/-- `swap(hash_table_[hash][ind], hash_table_[hash].back()); ...;
hash_table_[hash].pop_back()` (`src/HashTable.cpp` lines 105-107): the
net effect on the bucket of the swap-with-last then pop. -/
def swapPop (b : List Nat) (i : Nat) : List Nat :=
  (b.set i (b.getD (b.length - 1) 0)).dropLast

/-- `delete_element(key)` (`src/HashTable.cpp` lines 98-112): if the key
is present at position `ind` of its bucket, swap-and-pop the bucket,
erase the referenced node from `elements_`, and decrement `size_`; in
every case run `rebuild_if_needed`. -/
def deleteElement (t : HashMap K V) (key : K) : HashMap K V :=
  let rawHash := t.hasher key
  let p := getPosition t key rawHash
  let t1 :=
    match p.2 with
    | some i =>
      let b := t.buckets.getD p.1 []
      let tid := b.getD i 0
      { t with elements := t.elements.eraseP (fun e => e.id == tid),
               buckets := t.buckets.set p.1 (swapPop b i),
               size := t.size - 1 }
    | none => t
  rebuildIfNeeded t1

/-- `insert(el)` (`src/HashTable.cpp` line 205): `add_element(el)`. -/
def insert (t : HashMap K V) (key : K) (val : V) : HashMap K V :=
  (addElement t key val).2

/-- `erase(el)` (`src/HashTable.cpp` line 210): `delete_element(el)`. -/
def erase (t : HashMap K V) (key : K) : HashMap K V :=
  deleteElement t key

/-- `find(key)` (`src/HashTable.cpp` lines 233-244): the stable reference
`hash_table_[hash][ind]` when the key is present, the end-marker
(`none`, for `end()`) otherwise. -/
def find (t : HashMap K V) (key : K) : Option Nat :=
  let p := getPosition t key (t.hasher key)
  match p.2 with
  | some i => some ((t.buckets.getD p.1 []).getD i 0)
  | none => none

/-- The entry a successful `find` dereferences to. -/
def findEntry (t : HashMap K V) (key : K) : Option (Entry K V) :=
  (find t key).bind (deref t)

/-- `at(key)` (`src/HashTable.cpp` lines 280-287): `find`, then the
value `it->second` if the iterator is not `end()`, else
`throw std::out_of_range("No such key!")`, modelled as `none`. -/
def atKey (t : HashMap K V) (key : K) : Option V :=
  (findEntry t key).map Entry.val

/-- `operator[](key)` (`src/HashTable.cpp` lines 267-275):
`add_element({key, ValueType()})` (whose result is the raw hash), then
`get_position` again and return `hash_table_[hash][ind]->second`.  The
C++ dereferences unconditionally; the model returns `none` in the (never
reached on valid states) case the position scan fails. -/
def opIndex (t : HashMap K V) (key : K) (defaultVal : V) : Option V × HashMap K V :=
  let r := addElement t key defaultVal
  let t1 := r.2
  let p := getPosition t1 key r.1
  match p.2 with
  | some i => ((deref t1 ((t1.buckets.getD p.1 []).getD i 0)).map Entry.val, t1)
  | none => (none, t1)

/-- `clear()` (`src/HashTable.cpp` lines 291-296): clear `elements_`,
zero `size_`, reset the bucket index to `kDefaultCapacity = 1` empty
buckets and `capacity_` to `kDefaultCapacity`. -/
def clear (t : HashMap K V) : HashMap K V :=
  { t with elements := [], size := 0, buckets := [[]], capacity := 1 }

/-- The copy constructor (`src/HashTable.cpp` lines 156-160): copy
`size_`, `hash_` and `elements_`, then `rebuild(other.capacity_)`
(before which `capacity_` has its default initial value and the bucket
array is empty). -/
def copyOf (t : HashMap K V) : HashMap K V :=
  rebuild { t with capacity := 1, buckets := [] } t.capacity

/-- Copy assignment (`src/HashTable.cpp` lines 174-180): copy `hash_`,
`elements_` and `size_` into the destination, then
`rebuild(other.capacity_)`, which overwrites the destination's bucket
array and capacity. -/
def copyAssign (dst src : HashMap K V) : HashMap K V :=
  rebuild { src with capacity := dst.capacity, buckets := dst.buckets } src.capacity

/-- The destination of the move constructor (`src/HashTable.cpp` lines
164-170) / move assignment (lines 184-191): it takes over every data
member of the source. -/
def moveNew (t : HashMap K V) : HashMap K V :=
  { hasher := t.hasher, capacity := t.capacity, size := t.size,
    buckets := t.buckets, elements := t.elements, nextId := t.nextId }

/-- The source after a move (`src/HashTable.cpp` lines 164-170 and
184-191): its `elements_` and `hash_table_` have been moved away (left
empty), while nothing in the move operations touches its `size_` or
`capacity_`, which keep their old values. -/
def movedFrom (t : HashMap K V) : HashMap K V :=
  { t with buckets := [], elements := [] }

/-- Mutation of one stored value through the reference returned by
`find`/`operator[]` (`it->second = v`): the entry keeps its identity and
key and takes the new value. -/
def writeVal (t : HashMap K V) (key : K) (v : V) : HashMap K V :=
  { t with elements :=
      t.elements.map (fun e => if e.key = key then { e with val := v } else e) }

/-- The range/initializer-list constructors (`src/HashTable.cpp` lines
131-152): start from the default-capacity empty table and `add_element`
each pair in order. -/
def fromList (hash : K → Nat) (l : List (K × V)) : HashMap K V :=
  l.foldl (fun t p => (addElement t p.1 p.2).2) (HashMap.new hash)

/-- Element-store side of the representation invariant: `size_` counts
the nodes of `elements_`, node identities are fresh below `nextId` and
pairwise distinct, and keys are pairwise distinct. -/
structure ElemsInv (t : HashMap K V) : Prop where
  size_eq : t.size = t.elements.length
  ids_lt : ∀ e ∈ t.elements, e.id < t.nextId
  ids_nodup : (t.elements.map Entry.id).Nodup
  keys_nodup : (t.elements.map Entry.key).Nodup

/-- The structural representation invariant of a live table: the element
store is well-formed, the bucket array has exactly `capacity_ ≥ 1`
slots, every stored entry is referenced exactly once by the bucket
`hash(key) % capacity`, and every reference held by any bucket points to
a live entry whose key hashes to that bucket. -/
structure PreInv (t : HashMap K V) : Prop where
  elems : ElemsInv t
  cap_pos : 1 ≤ t.capacity
  blen : t.buckets.length = t.capacity
  home : ∀ e ∈ t.elements,
    (t.buckets.getD (t.hasher e.key % t.capacity) []).count e.id = 1
  sound : ∀ j, ∀ a ∈ t.buckets.getD j [],
    ∃ e ∈ t.elements, e.id = a ∧ t.hasher e.key % t.capacity = j

/-- Full invariant: the structural invariant plus the load-factor bound
`size_ <= capacity_ / 2` that `rebuild_if_needed` restores. -/
def Inv (t : HashMap K V) : Prop :=
  PreInv t ∧ 2 * t.size ≤ t.capacity

/-- Table states reachable by sequences of public operations other than
being the source of a move: construction (default, range or
initializer-list), `insert`, `erase`, `operator[]`, `clear`, and copy
construction/assignment (a move destination has exactly the state of its
source, so it adds no new states). -/
inductive ReachableNM : HashMap K V → Prop where
  | new (hash : K → Nat) : ReachableNM (HashMap.new hash)
  | fromL (hash : K → Nat) (l : List (K × V)) : ReachableNM (fromList hash l)
  | insert {t : HashMap K V} (k : K) (v : V) :
      ReachableNM t → ReachableNM (insert t k v)
  | erase {t : HashMap K V} (k : K) :
      ReachableNM t → ReachableNM (erase t k)
  | index {t : HashMap K V} (k : K) (d : V) :
      ReachableNM t → ReachableNM (opIndex t k d).2
  | clear {t : HashMap K V} :
      ReachableNM t → ReachableNM (clear t)
  | copy {t : HashMap K V} :
      ReachableNM t → ReachableNM (copyOf t)
  | copyAsgn {d t : HashMap K V} :
      ReachableNM d → ReachableNM t → ReachableNM (copyAssign d t)

/-- Table states reachable by any sequence of public operations,
including being left behind as the source of a move. -/
def Reachable (t : HashMap K V) : Prop :=
  ReachableNM t ∨ ∃ s : HashMap K V, ReachableNM s ∧ t = movedFrom s

/-- The identity hasher on `Nat` keys, used for the concrete scenarios:
it keeps the five keys `0..4` pairwise distinct. -/
def idh : Nat → Nat := fun n => n

/-- The empty table of the capacity-progression scenario. -/
def t0 : HashMap Nat Nat := HashMap.new idh

/-- The scenario table after inserting the 1st distinct key. -/
def t1 : HashMap Nat Nat := insert t0 0 10

/-- The scenario table after inserting the 2nd distinct key. -/
def t2 : HashMap Nat Nat := insert t1 1 11

/-- The scenario table after inserting the 3rd distinct key. -/
def t3 : HashMap Nat Nat := insert t2 2 12

/-- The scenario table after inserting the 4th distinct key. -/
def t4 : HashMap Nat Nat := insert t3 3 13

/-- The scenario table after inserting the 5th distinct key. -/
def t5 : HashMap Nat Nat := insert t4 4 14

end HashTable

namespace HashTable

variable {K V : Type} [DecidableEq K]

/-! Helper lemmas about the bucket-array primitives. -/

theorem pushAt_length (bs : List (List Nat)) (i x : Nat) :
    (pushAt bs i x).length = bs.length := by
  simp [pushAt]

theorem getD_set_self {bs : List (List Nat)} {i : Nat} (h : i < bs.length)
    (v : List Nat) : (bs.set i v).getD i [] = v := by
  simp [List.getD_eq_getElem?_getD, List.getElem?_set, h]

theorem getD_set_ne {bs : List (List Nat)} {i j : Nat} (h : i ≠ j)
    (v : List Nat) : (bs.set i v).getD j [] = bs.getD j [] := by
  simp [List.getD_eq_getElem?_getD, List.getElem?_set, h]

theorem pushAt_getD_self {bs : List (List Nat)} {i : Nat} (h : i < bs.length)
    (x : Nat) : (pushAt bs i x).getD i [] = bs.getD i [] ++ [x] :=
  getD_set_self h _

theorem pushAt_getD_ne {bs : List (List Nat)} {i j : Nat} (h : i ≠ j)
    (x : Nat) : (pushAt bs i x).getD j [] = bs.getD j [] :=
  getD_set_ne h _

theorem indexInto_cons (hash : K → Nat) (cap : Nat) (e : Entry K V)
    (els : List (Entry K V)) (bs : List (List Nat)) :
    indexInto hash cap (e :: els) bs
      = indexInto hash cap els (pushAt bs (hash e.key % cap) e.id) := rfl

theorem indexInto_length (hash : K → Nat) (cap : Nat) :
    ∀ (els : List (Entry K V)) (bs : List (List Nat)),
      (indexInto hash cap els bs).length = bs.length := by
  intro els
  induction els with
  | nil => intro bs; rfl
  | cons e els ih =>
    intro bs
    rw [indexInto_cons, ih, pushAt_length]

theorem indexInto_getD (hash : K → Nat) {cap : Nat} (hc : 0 < cap) :
    ∀ (els : List (Entry K V)) (bs : List (List Nat)), bs.length = cap → ∀ j,
      (indexInto hash cap els bs).getD j [] =
        bs.getD j [] ++ (els.filter (fun e => hash e.key % cap == j)).map Entry.id := by
  intro els
  induction els with
  | nil => intro bs hl j; simp [indexInto]
  | cons e els ih =>
    intro bs hl j
    have hlen : (pushAt bs (hash e.key % cap) e.id).length = cap := by
      rw [pushAt_length]; exact hl
    rw [indexInto_cons, ih _ hlen j]
    by_cases hj : hash e.key % cap = j
    · have hlt : j < bs.length := by
        rw [hl, ← hj]; exact Nat.mod_lt _ hc
      rw [hj, pushAt_getD_self hlt]
      simp [List.filter_cons, hj]
    · rw [pushAt_getD_ne hj]
      simp [List.filter_cons, hj]

/-! Helper lemmas about node dereferencing. -/

theorem find?_id_of_mem {l : List (Entry K V)} (hnd : (l.map Entry.id).Nodup)
    {e : Entry K V} (he : e ∈ l) : l.find? (fun x => x.id == e.id) = some e := by
  induction l with
  | nil => cases he
  | cons a l ih =>
    rw [List.map_cons, List.nodup_cons] at hnd
    rcases List.mem_cons.mp he with rfl | he'
    · simp [List.find?_cons]
    · have hne : (a.id == e.id) = false := by
        rw [beq_eq_false_iff_ne]
        intro hcontra
        exact hnd.1 (hcontra ▸ List.mem_map_of_mem Entry.id he')
      rw [List.find?_cons, hne]
      exact ih hnd.2 he'

theorem deref_of_mem {t : HashMap K V} (hnd : (t.elements.map Entry.id).Nodup)
    {e : Entry K V} (he : e ∈ t.elements) : deref t e.id = some e :=
  find?_id_of_mem hnd he

theorem deref_mem {t : HashMap K V} {a : Nat} {e : Entry K V}
    (h : deref t a = some e) : e ∈ t.elements ∧ e.id = a := by
  refine ⟨List.mem_of_find?_eq_some h, ?_⟩
  have := List.find?_some h
  simpa using this

/-! Helper lemmas about the bucket scan of `get_position`. -/

theorem scanBucket_eq_none_iff (t : HashMap K V) (key : K) :
    ∀ (b : List Nat) (s : Nat),
      scanBucket t key b s = none ↔
        ∀ a ∈ b, ∀ e, deref t a = some e → ¬ e.key = key := by
  intro b
  induction b with
  | nil => intro s; simp [scanBucket]
  | cons a rest ih =>
    intro s
    simp only [scanBucket]
    cases hd : deref t a with
    | none =>
      simp only [hd]
      rw [ih (s + 1)]
      constructor
      · intro h x hx e hde
        rcases List.mem_cons.mp hx with rfl | hx'
        · rw [hd] at hde; cases hde
        · exact h x hx' e hde
      · intro h x hx e hde
        exact h x (List.mem_cons_of_mem a hx) e hde
    | some e =>
      simp only [hd]
      by_cases hk : e.key = key
      · simp only [if_pos hk]
        constructor
        · intro h; cases h
        · intro h; exact absurd hk (h a (List.mem_cons_self a rest) e hd)
      · simp only [if_neg hk]
        rw [ih (s + 1)]
        constructor
        · intro h x hx e' hde
          rcases List.mem_cons.mp hx with rfl | hx'
          · rw [hd] at hde
            cases hde
            exact hk
          · exact h x hx' e' hde
        · intro h x hx e' hde
          exact h x (List.mem_cons_of_mem a hx) e' hde

theorem scanBucket_eq_some (t : HashMap K V) (key : K) :
    ∀ (b : List Nat) (s i : Nat), scanBucket t key b s = some i →
      ∃ j, j < b.length ∧ i = s + j ∧
        ∃ e, deref t (b.getD j 0) = some e ∧ e.key = key := by
  intro b
  induction b with
  | nil => intro s i h; cases h
  | cons a rest ih =>
    intro s i h
    simp only [scanBucket] at h
    cases hd : deref t a with
    | none =>
      rw [hd] at h
      rcases ih (s + 1) i h with ⟨j, hj, hij, e, he, hek⟩
      refine ⟨j + 1, by simpa using Nat.succ_lt_succ hj, by omega, e, ?_, hek⟩
      simpa using he
    | some e =>
      simp only [hd] at h
      by_cases hk : e.key = key
      · rw [if_pos hk] at h
        cases h
        exact ⟨0, by simp, by omega, e, by simpa using hd, hk⟩
      · rw [if_neg hk] at h
        rcases ih (s + 1) i h with ⟨j, hj, hij, e', he', hek⟩
        refine ⟨j + 1, by simpa using Nat.succ_lt_succ hj, by omega, e', ?_, hek⟩
        simpa using he'

end HashTable

namespace HashTable

variable {K V : Type} [DecidableEq K]

/-! Helper lemmas about the swap-with-last-then-pop bucket removal. -/

theorem getD_last_eq_getLast (l : List Nat) (h : l ≠ []) :
    l.getD (l.length - 1) 0 = l.getLast h := by
  have hlt : l.length - 1 < l.length := by
    cases l with
    | nil => exact absurd rfl h
    | cons a l => simp
  rw [List.getD_eq_getElem?_getD, List.getElem?_eq_getElem hlt]
  simp [List.getLast_eq_getElem]

theorem eraseIdx_cons_perm : ∀ (b : List Nat) (i : Nat), i < b.length →
    b.Perm (b.getD i 0 :: b.eraseIdx i) := by
  intro b
  induction b with
  | nil => intro i h; exact absurd h (Nat.not_lt_zero i)
  | cons a l ih =>
    intro i h
    cases i with
    | zero => simp [List.eraseIdx]
    | succ i =>
      have h' : i < l.length := by
        have := h
        simp only [List.length_cons] at this
        omega
      have step : (a :: l).Perm (a :: (l.getD i 0 :: l.eraseIdx i)) :=
        (ih i h').cons a
      refine step.trans ?_
      rw [List.getD_cons_succ]
      show (a :: l.getD i 0 :: l.eraseIdx i).Perm
        (l.getD i 0 :: a :: l.eraseIdx i)
      exact List.Perm.swap _ _ _

theorem swapPop_perm : ∀ (b : List Nat) (i : Nat), i < b.length →
    (swapPop b i).Perm (b.eraseIdx i) := by
  intro b
  induction b with
  | nil => intro i h; exact absurd h (Nat.not_lt_zero i)
  | cons a l ih =>
    intro i h
    cases i with
    | zero =>
      cases l with
      | nil => simp [swapPop]
      | cons c l' =>
        have hm : (c :: l') ≠ ([] : List Nat) := by simp
        have hL : (a :: c :: l').getD ((a :: c :: l').length - 1) 0
            = (c :: l').getLast hm := by
          rw [← getD_last_eq_getLast (c :: l') hm]
          simp
        show ((a :: c :: l').set 0 ((a :: c :: l').getD ((a :: c :: l').length - 1) 0)).dropLast.Perm
          ((a :: c :: l').eraseIdx 0)
        rw [hL]
        show ((c :: l').getLast hm :: c :: l').dropLast.Perm (c :: l')
        rw [List.dropLast_cons_of_ne_nil hm]
        have hsplit : (c :: l').dropLast ++ [(c :: l').getLast hm] = c :: l' :=
          List.dropLast_concat_getLast hm
        calc ((c :: l').getLast hm :: (c :: l').dropLast).Perm
              ((c :: l').dropLast ++ [(c :: l').getLast hm]) :=
              (List.perm_append_singleton _ _).symm
          _ = c :: l' := hsplit
    | succ i =>
      have h' : i < l.length := by
        simp only [List.length_cons] at h
        omega
      have hl : l ≠ [] := by
        intro hcontra
        rw [hcontra] at h'
        exact absurd h' (Nat.not_lt_zero i)
      have hL : (a :: l).getD ((a :: l).length - 1) 0 = l.getD (l.length - 1) 0 := by
        cases l with
        | nil => exact absurd rfl hl
        | cons c l' => simp
      show ((a :: l).set (i + 1) ((a :: l).getD ((a :: l).length - 1) 0)).dropLast.Perm
        ((a :: l).eraseIdx (i + 1))
      rw [hL, List.set_cons_succ]
      have hne : l.set i (l.getD (l.length - 1) 0) ≠ [] := by
        intro hcontra
        have : (l.set i (l.getD (l.length - 1) 0)).length = 0 := by rw [hcontra]; rfl
        rw [List.length_set] at this
        rw [this] at h'
        exact absurd h' (Nat.not_lt_zero i)
      rw [List.dropLast_cons_of_ne_nil hne]
      show (a :: swapPop l i).Perm (a :: l.eraseIdx i)
      exact (ih i h').cons a

theorem swapPop_count {b : List Nat} {i : Nat} (h : i < b.length) (x : Nat) :
    b.count x = (swapPop b i).count x + (if b.getD i 0 = x then 1 else 0) := by
  have h1 := (eraseIdx_cons_perm b i h).count_eq x
  have h2 := (swapPop_perm b i h).count_eq x
  rw [h1, List.count_cons, h2]
  by_cases hx : b.getD i 0 = x
  · simp [hx]
  · simp [hx]

theorem swapPop_subset {b : List Nat} {i : Nat} (h : i < b.length) :
    ∀ x ∈ swapPop b i, x ∈ b := by
  intro x hx
  have := ((swapPop_perm b i h).mem_iff).mp hx
  exact (List.eraseIdx_sublist b i).mem this

/-! Removal of a uniquely-identified node from the element store. -/

theorem eraseP_append_middle (p : Entry K V → Bool) :
    ∀ (l1 : List (Entry K V)) (e : Entry K V) (l2 : List (Entry K V)),
      (∀ x ∈ l1, p x = false) → p e = true →
      (l1 ++ e :: l2).eraseP p = l1 ++ l2 := by
  intro l1
  induction l1 with
  | nil =>
    intro e l2 h1 h2
    simp [List.eraseP_cons, h2]
  | cons a l1 ih =>
    intro e l2 h1 h2
    have ha := h1 a (List.mem_cons_self a l1)
    simp only [List.cons_append, List.eraseP_cons, ha, cond_false]
    rw [ih e l2 (fun x hx => h1 x (List.mem_cons_of_mem a hx)) h2]

end HashTable

namespace HashTable

variable {K V : Type} [DecidableEq K]

/-! Projection lemmas: which fields the rebuild operations leave alone. -/

theorem rebuild_elements (t : HashMap K V) (c : Nat) :
    (rebuild t c).elements = t.elements := rfl

theorem rebuild_size (t : HashMap K V) (c : Nat) :
    (rebuild t c).size = t.size := rfl

theorem rebuild_capacity (t : HashMap K V) (c : Nat) :
    (rebuild t c).capacity = c := rfl

theorem rebuild_hasher (t : HashMap K V) (c : Nat) :
    (rebuild t c).hasher = t.hasher := rfl

theorem rebuild_nextId (t : HashMap K V) (c : Nat) :
    (rebuild t c).nextId = t.nextId := rfl

theorem rebuildIfNeeded_elements (t : HashMap K V) :
    (rebuildIfNeeded t).elements = t.elements := by
  unfold rebuildIfNeeded
  split
  · rfl
  · split <;> rfl

theorem rebuildIfNeeded_size (t : HashMap K V) :
    (rebuildIfNeeded t).size = t.size := by
  unfold rebuildIfNeeded
  split
  · rfl
  · split <;> rfl

theorem rebuildIfNeeded_hasher (t : HashMap K V) :
    (rebuildIfNeeded t).hasher = t.hasher := by
  unfold rebuildIfNeeded
  split
  · rfl
  · split <;> rfl

theorem rebuildIfNeeded_nextId (t : HashMap K V) :
    (rebuildIfNeeded t).nextId = t.nextId := by
  unfold rebuildIfNeeded
  split
  · rfl
  · split <;> rfl

theorem ElemsInv.congr {t t' : HashMap K V} (h : ElemsInv t)
    (he : t'.elements = t.elements) (hs : t'.size = t.size)
    (hn : t'.nextId = t.nextId) : ElemsInv t' :=
  ⟨by rw [hs, he]; exact h.size_eq,
   by rw [he, hn]; exact h.ids_lt,
   by rw [he]; exact h.ids_nodup,
   by rw [he]; exact h.keys_nodup⟩

/-! `rebuild` restores the structural invariant from the element-store
invariant alone, whatever the old bucket array looked like. -/

theorem rebuild_getD {t : HashMap K V} {c : Nat} (hc : 1 ≤ c) (j : Nat) :
    (rebuild t c).buckets.getD j []
      = (t.elements.filter (fun e => t.hasher e.key % c == j)).map Entry.id := by
  have hrepl : (List.replicate c ([] : List Nat)).length = c := by simp
  show (indexInto t.hasher c t.elements (List.replicate c [])).getD j [] = _
  rw [indexInto_getD t.hasher hc t.elements _ hrepl j]
  have hrep : (List.replicate c ([] : List Nat)).getD j [] = [] := by
    rw [List.getD_eq_getElem?_getD]
    rcases Nat.lt_or_ge j c with hj | hj
    · rw [List.getElem?_eq_getElem (by simpa using hj)]
      simp
    · rw [List.getElem?_eq_none (by simpa using hj)]
      rfl
  rw [hrep, List.nil_append]

theorem preInv_rebuild {t : HashMap K V} (h : ElemsInv t) {c : Nat} (hc : 1 ≤ c) :
    PreInv (rebuild t c) := by
  refine ⟨h.congr rfl rfl rfl, hc, ?_, ?_, ?_⟩
  · show (indexInto t.hasher c t.elements (List.replicate c [])).length = c
    rw [indexInto_length]
    simp
  · intro e he
    rw [show (rebuild t c).capacity = c from rfl,
        show (rebuild t c).hasher = t.hasher from rfl,
        rebuild_getD hc]
    have hmemf : e ∈ t.elements.filter (fun x => t.hasher x.key % c == t.hasher e.key % c) := by
      rw [List.mem_filter]
      exact ⟨he, by simp⟩
    apply List.count_eq_one_of_mem
    · exact ((List.filter_sublist t.elements).map Entry.id).nodup h.ids_nodup
    · exact List.mem_map_of_mem Entry.id hmemf
  · intro j a ha
    rw [show (rebuild t c).capacity = c from rfl,
        show (rebuild t c).hasher = t.hasher from rfl] at *
    rw [rebuild_getD hc j] at ha
    rcases List.mem_map.mp ha with ⟨e, hef, hid⟩
    rcases List.mem_filter.mp hef with ⟨he, hcond⟩
    refine ⟨e, he, hid, ?_⟩
    simpa using hcond

/-- `rebuild_if_needed` restores the full invariant whenever the
structural invariant holds and `size_ <= capacity_` going in. -/
theorem inv_rebuildIfNeeded {t : HashMap K V} (h : PreInv t)
    (hs : t.size ≤ t.capacity) : Inv (rebuildIfNeeded t) := by
  have hcap := h.cap_pos
  unfold rebuildIfNeeded
  split
  · refine ⟨preInv_rebuild h.elems (by omega), ?_⟩
    show 2 * t.size ≤ t.capacity * 2
    omega
  · split
    · rename_i hng hshrink
      obtain ⟨h8, h1⟩ := hshrink
      refine ⟨preInv_rebuild h.elems (by omega), ?_⟩
      show 2 * t.size ≤ t.capacity / 2
      omega
    · rename_i hng hns
      exact ⟨h, by omega⟩

/-! Correctness of `get_position` on states satisfying the invariant. -/

theorem getPosition_fst (t : HashMap K V) (key : K) (r : Nat) :
    (getPosition t key r).1 = r % t.capacity := rfl

theorem getPos_none_iff {t : HashMap K V} (h : PreInv t) (k : K) :
    (getPosition t k (t.hasher k)).2 = none ↔ ∀ e ∈ t.elements, e.key ≠ k := by
  show scanBucket t k (t.buckets.getD (t.hasher k % t.capacity) []) 0 = none ↔ _
  rw [scanBucket_eq_none_iff]
  constructor
  · intro hscan e he hek
    have hcount := h.home e he
    have hid : e.id ∈ t.buckets.getD (t.hasher e.key % t.capacity) [] := by
      by_contra hnot
      rw [List.count_eq_zero_of_not_mem hnot] at hcount
      cases hcount
    rw [hek] at hid
    exact (hscan e.id hid e (deref_of_mem h.elems.ids_nodup he)) hek
  · intro hall a ha e hde hek
    obtain ⟨hmem, _⟩ := deref_mem hde
    exact hall e hmem hek

theorem getPos_some {t : HashMap K V} (h : PreInv t) {k : K} {i : Nat}
    (hp : (getPosition t k (t.hasher k)).2 = some i) :
    ∃ e ∈ t.elements, e.key = k ∧
      i < (t.buckets.getD (t.hasher k % t.capacity) []).length ∧
      (t.buckets.getD (t.hasher k % t.capacity) []).getD i 0 = e.id := by
  have hscan : scanBucket t k (t.buckets.getD (t.hasher k % t.capacity) []) 0 = some i := hp
  rcases scanBucket_eq_some t k _ 0 i hscan with ⟨j, hj, hij, e, hde, hek⟩
  have hj' : i = j := by omega
  subst hj'
  obtain ⟨hmem, hid⟩ := deref_mem hde
  exact ⟨e, hmem, hek, hj, hid.symm⟩

/-- Keys of stored entries are unique, so any two entries sharing a key
are the same entry. -/
theorem key_unique {t : HashMap K V} (h : ElemsInv t) {e e' : Entry K V}
    (he : e ∈ t.elements) (he' : e' ∈ t.elements) (hk : e.key = e'.key) :
    e = e' :=
  List.inj_on_of_nodup_map h.keys_nodup he he' hk

end HashTable

namespace HashTable

variable {K V : Type} [DecidableEq K]

/-! Behaviour and invariant preservation of `add_element`. -/

theorem addElement_present {t : HashMap K V} {k : K} {i : Nat}
    (hp : (getPosition t k (t.hasher k)).2 = some i) (v : V) :
    (addElement t k v).2 = rebuildIfNeeded t := by
  simp [addElement, hp]

theorem addElement_absent {t : HashMap K V} {k : K}
    (hp : (getPosition t k (t.hasher k)).2 = none) (v : V) :
    (addElement t k v).2 = rebuildIfNeeded
      { t with elements := t.elements ++ [⟨t.nextId, k, v⟩],
               buckets := pushAt t.buckets (t.hasher k % t.capacity) t.nextId,
               size := t.size + 1,
               nextId := t.nextId + 1 } := by
  simp [addElement, hp, getPosition_fst]

theorem preInv_addMid {t : HashMap K V} (h : PreInv t) {k : K}
    (habs : ∀ e ∈ t.elements, e.key ≠ k) (v : V) :
    PreInv { t with elements := t.elements ++ [⟨t.nextId, k, v⟩],
                    buckets := pushAt t.buckets (t.hasher k % t.capacity) t.nextId,
                    size := t.size + 1,
                    nextId := t.nextId + 1 } := by
  have hhom : t.hasher k % t.capacity < t.buckets.length := by
    rw [h.blen]; exact Nat.mod_lt _ h.cap_pos
  have hfresh_bucket : ∀ j, t.nextId ∉ t.buckets.getD j [] := by
    intro j hmem
    rcases h.sound j _ hmem with ⟨e, he, hid, _⟩
    exact absurd hid (Nat.ne_of_lt (h.elems.ids_lt e he))
  refine ⟨⟨?_, ?_, ?_, ?_⟩, h.cap_pos, ?_, ?_, ?_⟩
  · show t.size + 1 = (t.elements ++ [(⟨t.nextId, k, v⟩ : Entry K V)]).length
    simp [h.elems.size_eq]
  · show ∀ e ∈ t.elements ++ [(⟨t.nextId, k, v⟩ : Entry K V)], e.id < t.nextId + 1
    intro e he
    rcases List.mem_append.mp he with he' | he'
    · exact Nat.lt_succ_of_lt (h.elems.ids_lt e he')
    · rcases List.mem_singleton.mp he' with rfl
      exact Nat.lt_succ_self _
  · show ((t.elements ++ [(⟨t.nextId, k, v⟩ : Entry K V)]).map Entry.id).Nodup
    rw [List.map_append, List.nodup_append]
    refine ⟨h.elems.ids_nodup, by simp, ?_⟩
    intro a ha hb
    rcases List.mem_map.mp ha with ⟨e, he, rfl⟩
    have heq : e.id = t.nextId := List.mem_singleton.mp (by simpa using hb)
    exact absurd heq (Nat.ne_of_lt (h.elems.ids_lt e he))
  · show ((t.elements ++ [(⟨t.nextId, k, v⟩ : Entry K V)]).map Entry.key).Nodup
    rw [List.map_append, List.nodup_append]
    refine ⟨h.elems.keys_nodup, by simp, ?_⟩
    intro a ha hb
    rcases List.mem_map.mp ha with ⟨e, he, rfl⟩
    rcases List.mem_singleton.mp (by simpa using hb) with heq
    exact absurd heq (habs e he)
  · show (pushAt t.buckets (t.hasher k % t.capacity) t.nextId).length = t.capacity
    rw [pushAt_length, h.blen]
  · intro e he
    rcases List.mem_append.mp he with he' | he'
    · show ((pushAt t.buckets (t.hasher k % t.capacity) t.nextId).getD
          (t.hasher e.key % t.capacity) []).count e.id = 1
      have hne : e.id ≠ t.nextId := Nat.ne_of_lt (h.elems.ids_lt e he')
      by_cases hj : t.hasher k % t.capacity = t.hasher e.key % t.capacity
      · rw [← hj, pushAt_getD_self hhom, List.count_append, hj, h.home e he']
        simp [hne]
      · rw [pushAt_getD_ne hj, h.home e he']
    · rcases List.mem_singleton.mp he' with rfl
      show ((pushAt t.buckets (t.hasher k % t.capacity) t.nextId).getD
          (t.hasher k % t.capacity) []).count t.nextId = 1
      rw [pushAt_getD_self hhom, List.count_append,
          List.count_eq_zero_of_not_mem (hfresh_bucket _)]
      simp
  · intro j a ha
    by_cases hj : t.hasher k % t.capacity = j
    · rw [← hj, pushAt_getD_self hhom] at ha
      rcases List.mem_append.mp ha with ha' | ha'
      · rcases h.sound _ a ha' with ⟨e, he, hid, hhome⟩
        exact ⟨e, List.mem_append.mpr (Or.inl he), hid, by rw [hhome, hj]⟩
      · rcases List.mem_singleton.mp ha' with rfl
        refine ⟨⟨t.nextId, k, v⟩, List.mem_append.mpr (Or.inr (by simp)), rfl, hj⟩
    · rw [pushAt_getD_ne hj] at ha
      rcases h.sound j a ha with ⟨e, he, hid, hhome⟩
      exact ⟨e, List.mem_append.mpr (Or.inl he), hid, hhome⟩

theorem inv_addElement {t : HashMap K V} (h : Inv t) (k : K) (v : V) :
    Inv (addElement t k v).2 := by
  obtain ⟨hpre, hload⟩ := h
  have hcap := hpre.cap_pos
  cases hp : (getPosition t k (t.hasher k)).2 with
  | some i =>
    rw [addElement_present hp v]
    exact inv_rebuildIfNeeded hpre (by omega)
  | none =>
    rw [addElement_absent hp v]
    apply inv_rebuildIfNeeded (preInv_addMid hpre ((getPos_none_iff hpre k).mp hp) v)
    show t.size + 1 ≤ t.capacity
    omega

end HashTable

namespace HashTable

variable {K V : Type} [DecidableEq K]

/-! Behaviour and invariant preservation of `delete_element`. -/

/-- Erasing by node identity removes exactly the one node carrying that
identity and leaves the rest of the store in order. -/
theorem erase_node {l : List (Entry K V)} (hnd : (l.map Entry.id).Nodup)
    {e : Entry K V} (he : e ∈ l) :
    ∃ l1 l2, l = l1 ++ e :: l2 ∧
      l.eraseP (fun x => x.id == e.id) = l1 ++ l2 ∧
      (∀ x ∈ l1 ++ l2, x.id ≠ e.id) := by
  rcases List.append_of_mem he with ⟨l1, l2, rfl⟩
  have hne : ∀ x ∈ l1 ++ l2, x.id ≠ e.id := by
    rw [List.map_append, List.map_cons] at hnd
    have h2 := List.nodup_middle.mp hnd
    rw [List.nodup_cons] at h2
    intro x hx hcontra
    apply h2.1
    rw [← List.map_append, ← hcontra]
    exact List.mem_map_of_mem Entry.id hx
  refine ⟨l1, l2, rfl, ?_, hne⟩
  apply eraseP_append_middle
  · intro x hx
    rw [beq_eq_false_iff_ne]
    exact hne x (List.mem_append.mpr (Or.inl hx))
  · simp

theorem deleteElement_present {t : HashMap K V} {k : K} {i : Nat}
    (hp : (getPosition t k (t.hasher k)).2 = some i) :
    deleteElement t k = rebuildIfNeeded
      { t with
          elements := t.elements.eraseP
            (fun e => e.id == (t.buckets.getD (t.hasher k % t.capacity) []).getD i 0),
          buckets := t.buckets.set (t.hasher k % t.capacity)
            (swapPop (t.buckets.getD (t.hasher k % t.capacity) []) i),
          size := t.size - 1 } := by
  simp [deleteElement, hp, getPosition_fst]

theorem deleteElement_absent {t : HashMap K V} {k : K}
    (hp : (getPosition t k (t.hasher k)).2 = none) :
    deleteElement t k = rebuildIfNeeded t := by
  simp [deleteElement, hp]

theorem preInv_delMid {t : HashMap K V} (h : PreInv t) {k : K} {i : Nat}
    (hp : (getPosition t k (t.hasher k)).2 = some i) :
    PreInv { t with
        elements := t.elements.eraseP
          (fun e => e.id == (t.buckets.getD (t.hasher k % t.capacity) []).getD i 0),
        buckets := t.buckets.set (t.hasher k % t.capacity)
          (swapPop (t.buckets.getD (t.hasher k % t.capacity) []) i),
        size := t.size - 1 } := by
  rcases getPos_some h hp with ⟨e, he, hek, hilt, hgd⟩
  have hhomlt : t.hasher k % t.capacity < t.buckets.length := by
    rw [h.blen]; exact Nat.mod_lt _ h.cap_pos
  have hhome_e : t.hasher e.key % t.capacity = t.hasher k % t.capacity := by rw [hek]
  rcases erase_node h.elems.ids_nodup he with ⟨l1, l2, hdecomp, herase, hne⟩
  have hcnt_b : (t.buckets.getD (t.hasher k % t.capacity) []).count e.id = 1 := by
    have := h.home e he
    rwa [hhome_e] at this
  have hcnt_swap : (swapPop (t.buckets.getD (t.hasher k % t.capacity) []) i).count e.id = 0 := by
    have := swapPop_count hilt e.id
    rw [hgd, if_pos rfl, hcnt_b] at this
    omega
  have hmem_sub : ∀ x ∈ l1 ++ l2, x ∈ t.elements := by
    intro x hx
    rw [hdecomp]
    rcases List.mem_append.mp hx with h1 | h2
    · exact List.mem_append.mpr (Or.inl h1)
    · exact List.mem_append.mpr (Or.inr (List.mem_cons_of_mem e h2))
  have hmem_back : ∀ x, x ∈ t.elements → x ≠ e → x ∈ l1 ++ l2 := by
    intro x hx hxe
    rw [hdecomp] at hx
    rcases List.mem_append.mp hx with h1 | h2
    · exact List.mem_append.mpr (Or.inl h1)
    · rcases List.mem_cons.mp h2 with heq | h3
      · exact absurd heq hxe
      · exact List.mem_append.mpr (Or.inr h3)
  have hsub : (l1 ++ l2).Sublist t.elements := by
    rw [hdecomp]
    exact List.Sublist.append_left (List.sublist_cons_self e l2) l1
  have hlen : t.elements.length = l1.length + l2.length + 1 := by
    rw [hdecomp]
    simp
    omega
  rw [hgd, herase]
  refine ⟨⟨?_, ?_, ?_, ?_⟩, h.cap_pos, ?_, ?_, ?_⟩
  · show t.size - 1 = (l1 ++ l2).length
    have := h.elems.size_eq
    rw [List.length_append]
    omega
  · show ∀ x ∈ l1 ++ l2, x.id < t.nextId
    intro x hx
    exact h.elems.ids_lt x (hmem_sub x hx)
  · show ((l1 ++ l2).map Entry.id).Nodup
    exact List.Nodup.sublist (List.Sublist.map Entry.id hsub) h.elems.ids_nodup
  · show ((l1 ++ l2).map Entry.key).Nodup
    exact List.Nodup.sublist (List.Sublist.map Entry.key hsub) h.elems.keys_nodup
  · show (t.buckets.set (t.hasher k % t.capacity) _).length = t.capacity
    rw [List.length_set, h.blen]
  · intro x hx
    have hxid : x.id ≠ e.id := hne x hx
    have hxmem := hmem_sub x hx
    show ((t.buckets.set (t.hasher k % t.capacity)
        (swapPop (t.buckets.getD (t.hasher k % t.capacity) []) i)).getD
        (t.hasher x.key % t.capacity) []).count x.id = 1
    by_cases hj : t.hasher x.key % t.capacity = t.hasher k % t.capacity
    · rw [hj, getD_set_self hhomlt]
      have hsp := swapPop_count hilt x.id
      rw [hgd, if_neg (fun hc => hxid hc.symm)] at hsp
      have hold := h.home x hxmem
      rw [hj] at hold
      omega
    · rw [getD_set_ne (fun hc => hj hc.symm)]
      have hold := h.home x hxmem
      exact hold
  · intro j a ha
    show ∃ x ∈ l1 ++ l2, x.id = a ∧ t.hasher x.key % t.capacity = j
    by_cases hj : t.hasher k % t.capacity = j
    · subst hj
      rw [getD_set_self hhomlt] at ha
      have hab : a ∈ t.buckets.getD (t.hasher k % t.capacity) [] :=
        swapPop_subset hilt a ha
      have hanot : a ≠ e.id := by
        intro hcontra
        subst hcontra
        exact (List.count_eq_zero.mp hcnt_swap) ha
      rcases h.sound _ a hab with ⟨x, hxmem, hxid, hxhome⟩
      refine ⟨x, hmem_back x hxmem ?_, hxid, hxhome⟩
      intro hc
      subst hc
      exact hanot hxid.symm
    · rw [getD_set_ne hj] at ha
      rcases h.sound j a ha with ⟨x, hxmem, hxid, hxhome⟩
      refine ⟨x, hmem_back x hxmem ?_, hxid, hxhome⟩
      intro hc
      subst hc
      rw [hhome_e] at hxhome
      exact hj hxhome

theorem inv_deleteElement {t : HashMap K V} (h : Inv t) (k : K) :
    Inv (deleteElement t k) := by
  obtain ⟨hpre, hload⟩ := h
  have hcap := hpre.cap_pos
  cases hp : (getPosition t k (t.hasher k)).2 with
  | none =>
    rw [deleteElement_absent hp]
    exact inv_rebuildIfNeeded hpre (by omega)
  | some i =>
    rw [deleteElement_present hp]
    apply inv_rebuildIfNeeded (preInv_delMid hpre hp)
    show t.size - 1 ≤ t.capacity
    omega

end HashTable

namespace HashTable

variable {K V : Type} [DecidableEq K]

/-! The invariant holds in every reachable (non-moved-from) state. -/

theorem inv_new (hash : K → Nat) : Inv (HashMap.new hash : HashMap K V) := by
  constructor
  · refine ⟨⟨rfl, ?_, ?_, ?_⟩, Nat.le_refl 1, rfl, ?_, ?_⟩
    · intro e he; cases he
    · simp [HashMap.new]
    · simp [HashMap.new]
    · intro e he; cases he
    · intro j a ha
      have hj : (HashMap.new hash : HashMap K V).buckets.getD j [] = [] := by
        show ([[]] : List (List Nat)).getD j [] = []
        cases j with
        | zero => rfl
        | succ n => rfl
      rw [hj] at ha
      cases ha
  · show 2 * 0 ≤ 1
    omega

theorem inv_insert {t : HashMap K V} (h : Inv t) (k : K) (v : V) :
    Inv (insert t k v) :=
  inv_addElement h k v

theorem inv_erase {t : HashMap K V} (h : Inv t) (k : K) : Inv (erase t k) :=
  inv_deleteElement h k

theorem opIndex_snd (t : HashMap K V) (k : K) (d : V) :
    (opIndex t k d).2 = (addElement t k d).2 := by
  simp only [opIndex]
  cases hp : (getPosition (addElement t k d).2 k (addElement t k d).1).2 with
  | none => rfl
  | some i => rfl

theorem inv_opIndex {t : HashMap K V} (h : Inv t) (k : K) (d : V) :
    Inv (opIndex t k d).2 := by
  rw [opIndex_snd]
  exact inv_addElement h k d

theorem inv_clear (t : HashMap K V) : Inv (clear t) := by
  constructor
  · refine ⟨⟨rfl, ?_, ?_, ?_⟩, Nat.le_refl 1, rfl, ?_, ?_⟩
    · intro e he; cases he
    · simp [clear]
    · simp [clear]
    · intro e he; cases he
    · intro j a ha
      have hj : (clear t).buckets.getD j [] = [] := by
        show ([[]] : List (List Nat)).getD j [] = []
        cases j with
        | zero => rfl
        | succ n => rfl
      rw [hj] at ha
      cases ha
  · show 2 * 0 ≤ 1
    omega

theorem inv_copyOf {t : HashMap K V} (h : Inv t) : Inv (copyOf t) := by
  obtain ⟨hpre, hload⟩ := h
  refine ⟨preInv_rebuild (hpre.elems.congr rfl rfl rfl) hpre.cap_pos, ?_⟩
  show 2 * t.size ≤ t.capacity
  exact hload

theorem copyAssign_eq (d t : HashMap K V) : copyAssign d t = copyOf t := rfl

theorem inv_fromList (hash : K → Nat) (l : List (K × V)) :
    Inv (fromList hash l) := by
  have hgen : ∀ (l : List (K × V)) (t : HashMap K V), Inv t →
      Inv (l.foldl (fun t p => (addElement t p.1 p.2).2) t) := by
    intro l
    induction l with
    | nil => intro t h; exact h
    | cons p l ih => intro t h; exact ih _ (inv_addElement h p.1 p.2)
  exact hgen l _ (inv_new hash)

/-- Soundness of the representation invariant: it holds in every state
reachable by public operations that is not a moved-from source. -/
theorem inv_of_reachableNM {t : HashMap K V} (h : ReachableNM t) : Inv t := by
  induction h with
  | new hash => exact inv_new hash
  | fromL hash l => exact inv_fromList hash l
  | insert k v _ ih => exact inv_insert ih k v
  | erase k _ ih => exact inv_erase ih k
  | index k d _ ih => exact inv_opIndex ih k d
  | clear _ _ => exact inv_clear _
  | copy _ ih => exact inv_copyOf ih
  | copyAsgn _ _ _ iht => rw [copyAssign_eq]; exact inv_copyOf iht

/-! Correctness of `find`, `at` and `operator[]` on invariant states. -/

theorem find_eq_none_iff {t : HashMap K V} (h : PreInv t) (k : K) :
    find t k = none ↔ ∀ e ∈ t.elements, e.key ≠ k := by
  unfold find
  cases hp : (getPosition t k (t.hasher k)).2 with
  | none =>
    simp only [hp]
    constructor
    · intro _; exact (getPos_none_iff h k).mp hp
    · intro _; trivial
  | some i =>
    simp only [hp]
    constructor
    · intro hc; cases hc
    · intro hall
      exfalso
      rcases getPos_some h hp with ⟨e, hmem, hek, _, _⟩
      exact hall e hmem hek

theorem findEntry_present {t : HashMap K V} (h : PreInv t) {k : K}
    {e : Entry K V} (he : e ∈ t.elements) (hek : e.key = k) :
    findEntry t k = some e := by
  unfold findEntry find
  cases hp : (getPosition t k (t.hasher k)).2 with
  | none =>
    exfalso
    exact ((getPos_none_iff h k).mp hp) e he hek
  | some i =>
    simp only [hp, Option.bind_some, Option.some_bind]
    rcases getPos_some h hp with ⟨e', he', hek', hlt, hgd⟩
    show deref t ((t.buckets.getD (t.hasher k % t.capacity) []).getD i 0) = some e
    rw [hgd, deref_of_mem h.elems.ids_nodup he']
    have heqe : e' = e := key_unique h.elems he' he (by rw [hek', hek])
    rw [heqe]

theorem atKey_present {t : HashMap K V} (h : PreInv t) {k : K}
    {e : Entry K V} (he : e ∈ t.elements) (hek : e.key = k) :
    atKey t k = some e.val := by
  unfold atKey
  rw [findEntry_present h he hek]
  rfl

theorem atKey_absent {t : HashMap K V} (h : PreInv t) {k : K}
    (hab : ∀ e ∈ t.elements, e.key ≠ k) : atKey t k = none := by
  unfold atKey findEntry
  rw [(find_eq_none_iff h k).mpr hab]
  rfl

theorem addElement_fst (t : HashMap K V) (k : K) (v : V) :
    (addElement t k v).1 = t.hasher k := rfl

theorem addElement_hasher (t : HashMap K V) (k : K) (v : V) :
    (addElement t k v).2.hasher = t.hasher := by
  cases hp : (getPosition t k (t.hasher k)).2 with
  | some i => rw [addElement_present hp, rebuildIfNeeded_hasher]
  | none => rw [addElement_absent hp, rebuildIfNeeded_hasher]

theorem addElement_nextId_le (t : HashMap K V) (k : K) (v : V) :
    t.nextId ≤ (addElement t k v).2.nextId := by
  cases hp : (getPosition t k (t.hasher k)).2 with
  | some i => rw [addElement_present hp, rebuildIfNeeded_nextId]
  | none =>
    rw [addElement_absent hp, rebuildIfNeeded_nextId]
    exact Nat.le_succ _

theorem addElement_elements_present {t : HashMap K V} {k : K} {i : Nat}
    (hp : (getPosition t k (t.hasher k)).2 = some i) (v : V) :
    (addElement t k v).2.elements = t.elements := by
  rw [addElement_present hp v, rebuildIfNeeded_elements]

theorem addElement_size_present {t : HashMap K V} {k : K} {i : Nat}
    (hp : (getPosition t k (t.hasher k)).2 = some i) (v : V) :
    (addElement t k v).2.size = t.size := by
  rw [addElement_present hp v, rebuildIfNeeded_size]

theorem addElement_elements_absent {t : HashMap K V} {k : K}
    (hp : (getPosition t k (t.hasher k)).2 = none) (v : V) :
    (addElement t k v).2.elements = t.elements ++ [⟨t.nextId, k, v⟩] := by
  rw [addElement_absent hp v, rebuildIfNeeded_elements]

/-- `operator[]` returns the value of whichever entry holds the key
after the internal `add_element`. -/
theorem opIndex_eq {t : HashMap K V} (h : Inv t) (k : K) (d : V)
    {e : Entry K V} (he : e ∈ (addElement t k d).2.elements) (hek : e.key = k) :
    opIndex t k d = (some e.val, (addElement t k d).2) := by
  have h1 : Inv (addElement t k d).2 := inv_addElement h k d
  have hh : (addElement t k d).2.hasher = t.hasher := addElement_hasher t k d
  simp only [opIndex]
  rw [show (addElement t k d).1 = (addElement t k d).2.hasher k from by rw [hh]; rfl]
  cases hp : (getPosition (addElement t k d).2 k ((addElement t k d).2.hasher k)).2 with
  | none =>
    exfalso
    exact ((getPos_none_iff h1.1 k).mp hp) e he hek
  | some i =>
    simp only [hp]
    rcases getPos_some h1.1 hp with ⟨e', he', hek', hlt, hgd⟩
    rw [show (getPosition (addElement t k d).2 k ((addElement t k d).2.hasher k)).1
        = (addElement t k d).2.hasher k % (addElement t k d).2.capacity from rfl]
    rw [hgd, deref_of_mem h1.1.elems.ids_nodup he']
    have heqe : e' = e := key_unique h1.1.elems he' he (by rw [hek', hek])
    rw [heqe]
    rfl

/-! Erasure really removes the key. -/

theorem erase_key_absent {t : HashMap K V} (h : Inv t) (k : K) :
    ∀ e ∈ (erase t k).elements, e.key ≠ k := by
  obtain ⟨hpre, hload⟩ := h
  cases hp : (getPosition t k (t.hasher k)).2 with
  | none =>
    rw [show erase t k = rebuildIfNeeded t from deleteElement_absent hp,
        rebuildIfNeeded_elements]
    exact (getPos_none_iff hpre k).mp hp
  | some i =>
    rw [show erase t k = _ from deleteElement_present hp, rebuildIfNeeded_elements]
    rcases getPos_some hpre hp with ⟨e, he, hek, hilt, hgd⟩
    rcases erase_node hpre.elems.ids_nodup he with ⟨l1, l2, hdecomp, herase, hne⟩
    show ∀ x ∈ t.elements.eraseP
      (fun x => x.id == (t.buckets.getD (t.hasher k % t.capacity) []).getD i 0), x.key ≠ k
    rw [hgd, herase]
    intro x hx hxk
    have hxmem : x ∈ t.elements := by
      rw [hdecomp]
      rcases List.mem_append.mp hx with h1 | h2
      · exact List.mem_append.mpr (Or.inl h1)
      · exact List.mem_append.mpr (Or.inr (List.mem_cons_of_mem e h2))
    have hxe : x = e := key_unique hpre.elems hxmem he (by rw [hxk, hek])
    exact hne x hx (by rw [hxe])

theorem find_erase_none {t : HashMap K V} (h : Inv t) (k : K) :
    find (erase t k) k = none :=
  (find_eq_none_iff (inv_erase h k).1 k).mpr (erase_key_absent h k)

theorem erase_absent_noop {t : HashMap K V} {k : K}
    (hp : (getPosition t k (t.hasher k)).2 = none) :
    (erase t k).elements = t.elements ∧ (erase t k).size = t.size := by
  rw [show erase t k = rebuildIfNeeded t from deleteElement_absent hp]
  exact ⟨rebuildIfNeeded_elements t, rebuildIfNeeded_size t⟩

end HashTable

namespace HashTable

variable {K V : Type} [DecidableEq K]

/-! Reachability of the concrete scenario states. -/

theorem reach_t0 : ReachableNM t0 := ReachableNM.new idh

theorem reach_t1 : ReachableNM t1 := ReachableNM.insert 0 10 reach_t0

theorem reach_t2 : ReachableNM t2 := ReachableNM.insert 1 11 reach_t1

theorem reach_t3 : ReachableNM t3 := ReachableNM.insert 2 12 reach_t2

theorem reach_t4 : ReachableNM t4 := ReachableNM.insert 3 13 reach_t3

theorem reach_t5 : ReachableNM t5 := ReachableNM.insert 4 14 reach_t4

theorem reach_moved_t1 : Reachable (movedFrom t1) :=
  Or.inr ⟨t1, reach_t1, rfl⟩

end HashTable

namespace HashTable

variable {K V : Type} [DecidableEq K]

/-- C1 counterexample: the claim quantifies over all states reachable by
public operations including move, but the source left behind by a move
is such a state and violates the invariant: after moving out of a
one-entry table, the source's `size()` is still 1 while a full iteration
of its (moved-away, now empty) element store yields 0 entries. -/
theorem C1_counterexample :
    Reachable (movedFrom t1) ∧
    (movedFrom t1).size ≠ (movedFrom t1).elements.length :=
  ⟨reach_moved_t1, by decide⟩

/-- C1 (amended): in every table state reachable by construction,
`insert`, `erase`, `operator[]`, `clear` and copy — i.e. every reachable
state that is not the moved-from source of a move — `size()` equals the
number of entries produced by a full iteration from `begin()` to
`end()`, and every stored entry is referenced by exactly one bucket,
namely the bucket at index `hash(key) mod capacity`. -/
theorem C1_amended {t : HashMap K V} (h : ReachableNM t) :
    t.size = t.elements.length ∧
    ∀ e ∈ t.elements,
      (t.buckets.getD (t.hasher e.key % t.capacity) []).count e.id = 1 ∧
      ∀ j, e.id ∈ t.buckets.getD j [] → j = t.hasher e.key % t.capacity := by
  obtain ⟨hpre, _⟩ := inv_of_reachableNM h
  refine ⟨hpre.elems.size_eq, ?_⟩
  intro e he
  refine ⟨hpre.home e he, ?_⟩
  intro j hj
  rcases hpre.sound j e.id hj with ⟨e', he', hid, hhome⟩
  have heq : e' = e := List.inj_on_of_nodup_map hpre.elems.ids_nodup he' he hid
  rw [← hhome, heq]

/-- C1 witness: the amended invariant evaluated on the concrete
one-entry table `t1`. -/
theorem C1_witness :
    t1.size = t1.elements.length ∧
    ∀ e ∈ t1.elements,
      (t1.buckets.getD (t1.hasher e.key % t1.capacity) []).count e.id = 1 ∧
      ∀ j, e.id ∈ t1.buckets.getD j [] → j = t1.hasher e.key % t1.capacity :=
  C1_amended reach_t1

/-- C2 counterexample: starting from capacity 1 and inserting three
distinct keys (identity hasher, keys 0,1,2), the capacity after the 3rd
insert is 8, not the 4 the claim states: at that point size is 3 and
capacity was 4, and `3 >= 4/2` triggers another doubling. -/
theorem C2_counterexample : t3.capacity = 8 ∧ t3.capacity ≠ 4 := by decide

/-- C2 (amended): starting from an empty table with capacity 1,
inserting 5 distinct keys one by one (identity hasher on keys 0..4)
produces the capacity sequence 1→2→4→8→16→16 as size goes 0..5: after
the k-th insert the capacity equals 2, 4, 8, 16, 16 respectively, under
the grow rule `size >= capacity/2` checked after each insert. -/
theorem C2_amended :
    [t0.capacity, t1.capacity, t2.capacity, t3.capacity, t4.capacity, t5.capacity]
      = [1, 2, 4, 8, 16, 16] ∧
    [t0.size, t1.size, t2.size, t3.size, t4.size, t5.size]
      = [0, 1, 2, 3, 4, 5] := by decide

end HashTable

namespace HashTable

variable {K V : Type} [DecidableEq K]

/-- C3 counterexample: inserting an already-present key does keep the
first value (first write wins), but it is not a no-op on the whole
table state: on the one-entry table `t1` (size 1, capacity 2), the
duplicate `insert(0, 99)` still runs the rehash check, `1 >= 2/2`
fires, and the capacity grows from 2 to 4. -/
theorem C3_counterexample :
    atKey t1 0 = some 10 ∧
    atKey (insert t1 0 99) 0 = some 10 ∧
    t1.capacity = 2 ∧
    (insert t1 0 99).capacity = 4 := by decide

/-- C3 (amended): for every reachable state and key `k` present with
stored value `v1`, `insert(k, v2)` does not overwrite the value (the
value at `k` stays `v1`, first write wins) and leaves the element store
and `size` unchanged; but it still runs the rehash check at the end, so
the capacity and bucket index may change (the capacity doubles whenever
`size >= capacity/2` holds at that point). -/
theorem C3_amended {t : HashMap K V} (h : ReachableNM t) {k : K}
    {e : Entry K V} (he : e ∈ t.elements) (hek : e.key = k) (v2 : V) :
    (insert t k v2).elements = t.elements ∧
    (insert t k v2).size = t.size ∧
    atKey (insert t k v2) k = some e.val ∧
    atKey t k = some e.val := by
  have hinv := inv_of_reachableNM h
  obtain ⟨hpre, hload⟩ := hinv
  cases hp : (getPosition t k (t.hasher k)).2 with
  | none =>
    exact absurd hek (((getPos_none_iff hpre k).mp hp) e he)
  | some i =>
    have hel : (insert t k v2).elements = t.elements :=
      addElement_elements_present hp v2
    have hsz : (insert t k v2).size = t.size :=
      addElement_size_present hp v2
    refine ⟨hel, hsz, ?_, atKey_present hpre he hek⟩
    have hinv' := inv_insert ⟨hpre, hload⟩ k v2
    exact atKey_present hinv'.1 (by rw [show (insert t k v2).elements = t.elements from hel]; exact he) hek

/-- C3 witness: the amended statement evaluated on the concrete
duplicate insert `insert(0, 99)` into the one-entry table `t1`. -/
theorem C3_witness :
    (insert t1 0 99).elements = t1.elements ∧
    (insert t1 0 99).size = t1.size ∧
    atKey (insert t1 0 99) 0 = some 10 ∧
    atKey t1 0 = some 10 :=
  C3_amended reach_t1 (e := ⟨0, 0, 10⟩) (by decide) (by decide) 99

/-- C4 counterexample: erasing an absent key is not a no-op on the
whole table state: on the one-entry table `t1` (size 1, capacity 2),
`erase(1)` finds nothing to remove (the element store is unchanged) but
still runs the rehash check, `1 >= 2/2` fires, and the capacity grows
from 2 to 4. -/
theorem C4_counterexample :
    (erase t1 1).elements = t1.elements ∧
    t1.capacity = 2 ∧
    (erase t1 1).capacity = 4 := by decide

/-- C4 (amended): for every reachable state, after `erase(k)` a
subsequent `find(k)` returns the end-marker; and if `k` is absent,
`erase(k)` leaves the element store and `size` unchanged — but it still
runs the rehash check, so the capacity and bucket index may change. -/
theorem C4_amended {t : HashMap K V} (h : ReachableNM t) (k : K) :
    find (erase t k) k = none ∧
    ((∀ e ∈ t.elements, e.key ≠ k) →
      (erase t k).elements = t.elements ∧ (erase t k).size = t.size) := by
  have hinv := inv_of_reachableNM h
  refine ⟨find_erase_none hinv k, ?_⟩
  intro hab
  exact erase_absent_noop ((getPos_none_iff hinv.1 k).mpr hab)

/-- C4 witness: the amended statement evaluated on the concrete erase
of the absent key 1 from the one-entry table `t1`. -/
theorem C4_witness :
    find (erase t1 1) 1 = none ∧
    ((∀ e ∈ t1.elements, e.key ≠ 1) →
      (erase t1 1).elements = t1.elements ∧ (erase t1 1).size = t1.size) :=
  C4_amended reach_t1 1

end HashTable

namespace HashTable

variable {K V : Type} [DecidableEq K]

/-- C5: `at(k)` signals the "key not found" error (modelled `none`) if
and only if `k` is absent; if `k` is present it returns the stored
value.  `at` is a `const` member computing a pure function of the
state, so the table is unchanged in either case (in the model it does
not even produce a table), and it is the only operation with a failure
mode: `insert`, `erase` and `find` are total functions, and
`operator[]` always yields a value (`some`). -/
theorem C5_at_behavior {t : HashMap K V} (h : ReachableNM t) (k : K) :
    (atKey t k = none ↔ ∀ e ∈ t.elements, e.key ≠ k) ∧
    (∀ e ∈ t.elements, e.key = k → atKey t k = some e.val) ∧
    (∀ d : V, (opIndex t k d).1 ≠ none) := by
  have hinv := inv_of_reachableNM h
  refine ⟨⟨?_, fun hab => atKey_absent hinv.1 hab⟩,
    fun e he hek => atKey_present hinv.1 he hek, ?_⟩
  · intro hn e he hek
    rw [atKey_present hinv.1 he hek] at hn
    cases hn
  · intro d
    cases hp : (getPosition t k (t.hasher k)).2 with
    | some i =>
      rcases getPos_some hinv.1 hp with ⟨e, he, hek, _, _⟩
      have he' : e ∈ (addElement t k d).2.elements := by
        rw [addElement_elements_present hp d]; exact he
      rw [opIndex_eq hinv k d he' hek]
      simp
    | none =>
      have he' : (⟨t.nextId, k, d⟩ : Entry K V) ∈ (addElement t k d).2.elements := by
        rw [addElement_elements_absent hp d]
        exact List.mem_append.mpr (Or.inr (List.mem_singleton.mpr rfl))
      rw [opIndex_eq hinv k d he' rfl]
      simp

/-- C5 witness: the `at` behaviour evaluated on the one-entry table
`t1` at its present key 0 (and `operator[]` totality there). -/
theorem C5_witness :
    (atKey t1 0 = none ↔ ∀ e ∈ t1.elements, e.key ≠ 0) ∧
    (∀ e ∈ t1.elements, e.key = 0 → atKey t1 0 = some e.val) ∧
    (∀ d : Nat, (opIndex t1 0 d).1 ≠ none) :=
  C5_at_behavior reach_t1 0

/-- C6: for every reachable state and key `k`: if `k` is absent,
`operator[](k)` appends a new entry mapping `k` to the
default-constructed value and returns that value; if `k` is present, it
returns the existing value and creates no entry (the element store is
unchanged); and `operator[]` always succeeds (always yields a value,
never an error). -/
theorem C6_opIndex_behavior {t : HashMap K V} (h : ReachableNM t) (k : K) (d : V) :
    ((∀ e ∈ t.elements, e.key ≠ k) →
      (opIndex t k d).1 = some d ∧
      (opIndex t k d).2.elements = t.elements ++ [⟨t.nextId, k, d⟩]) ∧
    (∀ e ∈ t.elements, e.key = k →
      (opIndex t k d).1 = some e.val ∧
      (opIndex t k d).2.elements = t.elements) ∧
    (opIndex t k d).1 ≠ none := by
  have hinv := inv_of_reachableNM h
  refine ⟨?_, ?_, ?_⟩
  · intro hab
    have hp : (getPosition t k (t.hasher k)).2 = none :=
      (getPos_none_iff hinv.1 k).mpr hab
    have he' : (⟨t.nextId, k, d⟩ : Entry K V) ∈ (addElement t k d).2.elements := by
      rw [addElement_elements_absent hp d]
      exact List.mem_append.mpr (Or.inr (List.mem_singleton.mpr rfl))
    rw [opIndex_eq hinv k d he' rfl]
    exact ⟨rfl, addElement_elements_absent hp d⟩
  · intro e he hek
    cases hp : (getPosition t k (t.hasher k)).2 with
    | none => exact absurd hek (((getPos_none_iff hinv.1 k).mp hp) e he)
    | some i =>
      have he' : e ∈ (addElement t k d).2.elements := by
        rw [addElement_elements_present hp d]; exact he
      rw [opIndex_eq hinv k d he' hek]
      exact ⟨rfl, addElement_elements_present hp d⟩
  · cases hp : (getPosition t k (t.hasher k)).2 with
    | some i =>
      rcases getPos_some hinv.1 hp with ⟨e, he, hek, _, _⟩
      have he' : e ∈ (addElement t k d).2.elements := by
        rw [addElement_elements_present hp d]; exact he
      rw [opIndex_eq hinv k d he' hek]
      simp
    | none =>
      have he' : (⟨t.nextId, k, d⟩ : Entry K V) ∈ (addElement t k d).2.elements := by
        rw [addElement_elements_absent hp d]
        exact List.mem_append.mpr (Or.inr (List.mem_singleton.mpr rfl))
      rw [opIndex_eq hinv k d he' rfl]
      simp

/-- C6 witness: `operator[]` evaluated on the one-entry table `t1` at
the absent key 1 with default value 0. -/
theorem C6_witness :
    ((∀ e ∈ t1.elements, e.key ≠ 1) →
      (opIndex t1 1 0).1 = some 0 ∧
      (opIndex t1 1 0).2.elements = t1.elements ++ [⟨t1.nextId, 1, 0⟩]) ∧
    (∀ e ∈ t1.elements, e.key = 1 →
      (opIndex t1 1 0).1 = some e.val ∧
      (opIndex t1 1 0).2.elements = t1.elements) ∧
    (opIndex t1 1 0).1 ≠ none :=
  C6_opIndex_behavior reach_t1 1 0

end HashTable

namespace HashTable

variable {K V : Type} [DecidableEq K]

/-- C7 counterexample: the move operations never touch the source's
`size_` (or `capacity_`) member, so the source is not left empty: after
moving out of the one-entry table `t1`, the source still reports
`size() == 1` and `empty() == false` even though its element store and
bucket index have been moved away. -/
theorem C7_counterexample :
    Reachable (movedFrom t1) ∧
    (movedFrom t1).size = 1 ∧
    (movedFrom t1).empty = false ∧
    (movedFrom t1).elements = [] :=
  ⟨reach_moved_t1, by decide, by decide, by decide⟩

/-- C7 (amended): move construction and move assignment transfer every
data member to the destination, which afterwards holds exactly the
source's entries, size and capacity; the source's element store and
bucket index are left empty (iteration yields no entries), but its
`size_` and `capacity_` counters are not reset, so `size()` keeps the
pre-move value and `empty()` is false whenever the source was
non-empty. -/
theorem C7_amended (t : HashMap K V) :
    moveNew t = t ∧
    (movedFrom t).elements = [] ∧
    (movedFrom t).buckets = [] ∧
    (movedFrom t).size = t.size ∧
    (movedFrom t).capacity = t.capacity :=
  ⟨rfl, rfl, rfl, rfl, rfl⟩

/-- C8: a copy of a table (copy construction, and copy assignment which
produces the same result) holds the identical insertion-ordered
sequence of entries — so a full iteration yields the same (key,value)
pairs in the same order — and the copy's capacity equals the source's.
Writing a value through the copy only maps the copy's own element
store: the written entry (same identity and key, new value) lives in
the written copy while the original still holds its entry with the old
value; independence of ownership is inherent in the value semantics of
the embedding. -/
theorem C8_copy_roundtrip (t : HashMap K V) :
    (copyOf t).elements = t.elements ∧
    (copyOf t).capacity = t.capacity ∧
    (∀ d : HashMap K V, copyAssign d t = copyOf t) ∧
    (∀ (k : K) (v : V), (writeVal (copyOf t) k v).elements
        = t.elements.map (fun e => if e.key = k then { e with val := v } else e)) ∧
    (∀ (k : K) (v : V) (e : Entry K V), e ∈ t.elements → e.key = k →
      ({ e with val := v } ∈ (writeVal (copyOf t) k v).elements ∧
        e ∈ t.elements)) := by
  refine ⟨rfl, rfl, fun d => rfl, fun k v => rfl, ?_⟩
  intro k v e he hek
  refine ⟨?_, he⟩
  show { e with val := v } ∈ (copyOf t).elements.map
    (fun e => if e.key = k then { e with val := v } else e)
  have : { e with val := v }
      = (fun x : Entry K V => if x.key = k then { x with val := v } else x) e := by
    simp [hek]
  rw [this]
  exact List.mem_map_of_mem _ he

/-- C8 witness: the copy round-trip evaluated on the one-entry table
`t1`, writing value 99 at key 0 in the copy. -/
theorem C8_witness :
    (copyOf t1).elements = t1.elements ∧
    (copyOf t1).capacity = t1.capacity ∧
    ((⟨0, 0, 99⟩ : Entry Nat Nat) ∈ (writeVal (copyOf t1) 0 99).elements ∧
      (⟨0, 0, 10⟩ : Entry Nat Nat) ∈ t1.elements) := by
  have h := C8_copy_roundtrip t1
  refine ⟨h.1, h.2.1, ?_⟩
  exact h.2.2.2.2 0 99 ⟨0, 0, 10⟩ (by decide) (by decide)

/-- C9: in every reachable table state — including the source left
behind by a move, whose `size_` and `capacity_` are untouched — the
load-factor invariant `size <= capacity / 2` holds (it is restored at
the end of every insert and erase by the rehash check) and the capacity
never drops below the default capacity 1. -/
theorem C9_load_bound {t : HashMap K V} (h : Reachable t) :
    t.size ≤ t.capacity / 2 ∧ 1 ≤ t.capacity := by
  rcases h with h | ⟨s, hs, rfl⟩
  · obtain ⟨hpre, hload⟩ := inv_of_reachableNM h
    have := hpre.cap_pos
    exact ⟨by omega, hpre.cap_pos⟩
  · obtain ⟨hpre, hload⟩ := inv_of_reachableNM hs
    have hsz : (movedFrom s).size = s.size := rfl
    have hcp : (movedFrom s).capacity = s.capacity := rfl
    rw [hsz, hcp]
    exact ⟨by omega, hpre.cap_pos⟩

/-- C9 witness: the load bound evaluated on the concrete five-entry
table `t5` (size 5, capacity 16). -/
theorem C9_witness : t5.size ≤ t5.capacity / 2 ∧ 1 ≤ t5.capacity :=
  C9_load_bound (Or.inl reach_t5)

/-- C10 counterexample: the claim quantifies over every reachable
state, but the source left behind by a move is reachable and violates
it: its `capacity_` is still 2 while its moved-away bucket array has 0
slots, so `raw_hash mod capacity` is not a valid index into the bucket
array (in C++, `find` on this state would index out of bounds). -/
theorem C10_counterexample :
    Reachable (movedFrom t1) ∧
    (movedFrom t1).buckets.length ≠ (movedFrom t1).capacity ∧
    1 ≤ (movedFrom t1).capacity :=
  ⟨reach_moved_t1, by decide, by decide⟩

/-- C10 (amended): in every reachable state that is not a moved-from
source, the capacity is at least 1 and the bucket array has exactly
`capacity` slots, so for every key and lookup-style operation the
computation `raw_hash mod capacity` never divides by zero and the
resulting bucket index is within the bounds of the bucket array.
(Capacity at least 1 also holds in moved-from states, per C9; the
bucket-array bound does not.) -/
theorem C10_amended {t : HashMap K V} (h : ReachableNM t) :
    1 ≤ t.capacity ∧ t.buckets.length = t.capacity ∧
    ∀ raw : Nat, raw % t.capacity < t.buckets.length := by
  obtain ⟨hpre, _⟩ := inv_of_reachableNM h
  refine ⟨hpre.cap_pos, hpre.blen, ?_⟩
  intro raw
  rw [hpre.blen]
  exact Nat.mod_lt _ hpre.cap_pos

/-- C10 witness: the bucket-array bounds evaluated on the concrete
one-entry table `t1`. -/
theorem C10_witness :
    1 ≤ t1.capacity ∧ t1.buckets.length = t1.capacity ∧
    ∀ raw : Nat, raw % t1.capacity < t1.buckets.length :=
  C10_amended reach_t1

end HashTable
